import Mathlib

/-!
Shallow embedding of the playback-queue and player-supervisor core of the
`ytmusic` terminal client (Go sources `internal/player/queue.go` and the
player file containing `Play` / `monitorPlayback` / `Stop`), together with
proofs of the specification claims about them.

Conventions of the embedding:
* Go `int` is modelled as `Int` (the `-1` sentinel for `CurrentIndex` is used
  by the code); list indexing `l[i]` is modelled by `getAt`, which returns
  `none` where Go would panic with an index-out-of-range (all states the
  theorems quantify over keep indices in range, so the `none` branch is
  never hit there).
* The `logger` field and all `log` calls are pure output and carry no state;
  they are dropped.
* Randomness (`rand.Shuffle` in `ToggleShuffleMode`, `r.Shuffle` in
  `shuffleSegment`) is modelled by an oracle `shuf : List Int → List Int`
  passed as a parameter; a Fisher–Yates shuffle always produces a
  permutation of its input, which is the hypothesis `∀ l, shuf l ~ l`
  imposed wherever a theorem quantifies over the random draw.
* Methods that mutate the receiver return the new `Queue` (as the last
  component when the Go function also has results).
-/

inductive PlaybackMode where
  | RepeatNone
  | RepeatOne
  | RepeatAll
  deriving Repr, DecidableEq

structure Track where
  ID : String
  Title : String
  Artist : String
  Duration : Int
  deriving Repr, DecidableEq

structure Queue where
  Tracks : List Track
  CurrentIndex : Int
  ShuffleMode : Bool
  RepeatMode : PlaybackMode
  History : List Int
  ShuffleOrder : List Int
  deriving Repr, DecidableEq

/-- Go list indexing `l[i]` for an `int` index: `none` models the
index-out-of-range panic. -/
def getAt (l : List Track) (i : Int) : Option Track :=
  if 0 ≤ i then l.get? i.toNat else none

/-- `NewQueue` (queue.go): empty track list, `CurrentIndex = -1`, shuffle off,
`RepeatNone`, empty history and shuffle order. -/
def newQueue : Queue :=
  { Tracks := []
    CurrentIndex := -1
    ShuffleMode := false
    RepeatMode := PlaybackMode.RepeatNone
    History := []
    ShuffleOrder := [] }

/-- `GetCurrentTrack` (queue.go): the track at `CurrentIndex`, or `none` when
the queue is empty or the index is out of range. -/
def getCurrentTrack (q : Queue) : Option Track :=
  if q.Tracks.length = 0 ∨ q.CurrentIndex < 0 ∨
      (q.Tracks.length : Int) ≤ q.CurrentIndex then
    none
  else
    getAt q.Tracks q.CurrentIndex

/-- `Clear` (queue.go). -/
def clear (q : Queue) : Queue :=
  { q with Tracks := [], CurrentIndex := -1, History := [], ShuffleOrder := [] }

/-- `Add` (queue.go): append one track; while shuffle is active the new index
is appended to the shuffle order; a first insert auto-selects index 0. -/
def add (track : Track) (q : Queue) : Queue :=
  let q1 := { q with Tracks := q.Tracks ++ [track] }
  if q1.ShuffleMode then
    let q2 := { q1 with
      ShuffleOrder := q1.ShuffleOrder ++ [((q1.Tracks.length - 1 : Nat) : Int)] }
    if q2.Tracks.length = 1 then { q2 with CurrentIndex := 0 } else q2
  else if q1.CurrentIndex = -1 ∧ q1.Tracks.length = 1 then
    { q1 with CurrentIndex := 0 }
  else q1

/-- `shuffleSegment` (queue.go): permute `ShuffleOrder[start : stop+1]` in
place, leaving everything outside the segment untouched.  The Go indices are
`int`s, but the only call site passes the former track count and the new
track count minus one, both non-negative, so `Nat` indices are faithful. -/
def shuffleSegment (shuf : List Int → List Int) (start stop : Nat)
    (order : List Int) : List Int :=
  if start ≥ stop ∨ stop ≥ order.length then order
  else
    let segment := (order.drop start).take (stop + 1 - start)
    order.take start ++ shuf segment ++ order.drop (stop + 1)

/-- `AddTracks` (queue.go): append many tracks; while shuffle is active the
new indices are appended to the shuffle order and only that new segment is
permuted; if no track was current, index 0 becomes current. -/
def addTracks (shuf : List Int → List Int) (tracks : List Track)
    (q : Queue) : Queue :=
  if tracks.length = 0 then q
  else
    let originalLength := q.Tracks.length
    let q1 := { q with Tracks := q.Tracks ++ tracks }
    let q2 :=
      if q1.ShuffleMode then
        let extended := q1.ShuffleOrder ++
          ((List.range q1.Tracks.length).drop originalLength).map Int.ofNat
        { q1 with ShuffleOrder :=
            shuffleSegment shuf originalLength (q1.Tracks.length - 1) extended }
      else q1
    if q2.CurrentIndex = -1 then { q2 with CurrentIndex := 0 } else q2

/-- `SetTracks` (queue.go): `Clear` followed by `AddTracks`. -/
def setTracks (shuf : List Int → List Int) (tracks : List Track)
    (q : Queue) : Queue :=
  addTracks shuf tracks (clear q)

/-- `PlayTrack` (queue.go): reject out-of-range indices; otherwise push the
prior current index (when not `-1`) onto history and select `index`. -/
def playTrack (index : Int) (q : Queue) : Bool × Queue :=
  if index < 0 ∨ (q.Tracks.length : Int) ≤ index then (false, q)
  else
    let q1 :=
      if q.CurrentIndex ≠ -1 then
        { q with History := q.History ++ [q.CurrentIndex] }
      else q
    (true, { q1 with CurrentIndex := index })

/-- `NextTrack` (queue.go): returns `(track, ok)` and the updated queue.  The
history push happens before the repeat-mode dispatch, exactly as in the
source. -/
def nextTrack (q : Queue) : Option Track × Bool × Queue :=
  if q.Tracks.length = 0 then (none, false, q)
  else
    let q1 :=
      if q.CurrentIndex ≠ -1 then
        { q with History := q.History ++ [q.CurrentIndex] }
      else q
    if q1.RepeatMode = PlaybackMode.RepeatOne ∧ q1.CurrentIndex ≠ -1 then
      (getAt q1.Tracks q1.CurrentIndex, true, q1)
    else if q1.ShuffleMode then
      let pos : Int :=
        match q1.ShuffleOrder.findIdx? (fun idx => idx = q1.CurrentIndex) with
        | some i => (i : Int)
        | none => -1
      if pos = -1 ∨ pos = (q1.ShuffleOrder.length : Int) - 1 then
        if q1.RepeatMode = PlaybackMode.RepeatAll then
          let nextIndex := q1.ShuffleOrder.getD 0 0
          let q2 := { q1 with CurrentIndex := nextIndex }
          (getAt q2.Tracks q2.CurrentIndex, true, q2)
        else (none, false, q1)
      else
        let nextIndex := q1.ShuffleOrder.getD (pos + 1).toNat 0
        let q2 := { q1 with CurrentIndex := nextIndex }
        (getAt q2.Tracks q2.CurrentIndex, true, q2)
    else
      if q1.CurrentIndex = -1 ∨ q1.CurrentIndex = (q1.Tracks.length : Int) - 1 then
        if q1.RepeatMode = PlaybackMode.RepeatAll then
          let q2 := { q1 with CurrentIndex := 0 }
          (getAt q2.Tracks q2.CurrentIndex, true, q2)
        else (none, false, q1)
      else
        let q2 := { q1 with CurrentIndex := q1.CurrentIndex + 1 }
        (getAt q2.Tracks q2.CurrentIndex, true, q2)

/-- `PreviousTrack` (queue.go): pop history if any; otherwise replay (shuffle
on), wrap to the last index (at the start under `RepeatAll`), replay (at the
start otherwise), or step back one. -/
def previousTrack (q : Queue) : Option Track × Bool × Queue :=
  if q.Tracks.length = 0 then (none, false, q)
  else if 0 < q.History.length then
    let prevIndex := q.History.getLastD 0
    let q1 := { q with History := q.History.dropLast, CurrentIndex := prevIndex }
    (getAt q1.Tracks q1.CurrentIndex, true, q1)
  else if q.ShuffleMode then
    (getAt q.Tracks q.CurrentIndex, true, q)
  else if q.CurrentIndex ≤ 0 then
    if q.RepeatMode = PlaybackMode.RepeatAll then
      let q1 := { q with CurrentIndex := (q.Tracks.length : Int) - 1 }
      (getAt q1.Tracks q1.CurrentIndex, true, q1)
    else (getAt q.Tracks q.CurrentIndex, true, q)
  else
    let q1 := { q with CurrentIndex := q.CurrentIndex - 1 }
    (getAt q1.Tracks q1.CurrentIndex, true, q1)

/-- `ToggleShuffleMode` (queue.go).  Turning on: draw a random permutation of
`0..len-1` (the oracle `shuf` applied to the sequential list), swap the entry
equal to the current index to the front when a track is current, and make
`ShuffleOrder[0]` current.  Turning off: recover the list index of the
current track by ID and clear the order.  History is reset either way. -/
def toggleShuffleMode (shuf : List Int → List Int) (q : Queue) : Queue :=
  let q1 := { q with ShuffleMode := !q.ShuffleMode }
  if q1.ShuffleMode then
    let order1 := shuf ((List.range q1.Tracks.length).map Int.ofNat)
    match getCurrentTrack q1 with
    | some _ =>
      let order2 :=
        match order1.findIdx? (fun idx => idx = q1.CurrentIndex) with
        | some i => (order1.set i (order1.getD 0 0)).set 0 (order1.getD i 0)
        | none => order1
      { q1 with
        ShuffleOrder := order2
        CurrentIndex := order2.getD 0 q1.CurrentIndex
        History := [] }
    | none => { q1 with ShuffleOrder := order1, History := [] }
  else
    let q2 :=
      if q1.CurrentIndex ≠ -1 then
        match getCurrentTrack q1 with
        | some track =>
          match q1.Tracks.findIdx? (fun t => t.ID = track.ID) with
          | some i => { q1 with CurrentIndex := (i : Int) }
          | none => q1
        | none => q1
      else q1
    { q2 with ShuffleOrder := [], History := [] }

/-- `CycleRepeatMode` (queue.go): `None → One → All → None`. -/
def cycleRepeatMode (q : Queue) : PlaybackMode × Queue :=
  let m :=
    match q.RepeatMode with
    | PlaybackMode.RepeatNone => PlaybackMode.RepeatOne
    | PlaybackMode.RepeatOne => PlaybackMode.RepeatAll
    | PlaybackMode.RepeatAll => PlaybackMode.RepeatNone
  (m, { q with RepeatMode := m })

/-! ### Player supervisor (player file: `Play`, `monitorPlayback`, `Stop`) -/

/-- The playback state the watcher and `Stop` read and write: the logical
`IsPlaying` flag and the position/duration counters.  The process handle and
the queue pointer carry no information the claims need. -/
structure PlayerState where
  IsPlaying : Bool
  CurrentPos : Int
  Duration : Int
  deriving Repr, DecidableEq

/-- `monitorPlayback` (player file), from the point where the process exit
has been observed (`cmd.Wait` returned): the first component is `true` iff
the natural-completion test `p.IsPlaying && p.CurrentPos >= p.Duration-1`
passes, in which case `IsPlaying` is cleared and the next-track callback is
invoked; otherwise the state is untouched and no advancement happens. -/
def monitorPlayback (p : PlayerState) : Bool × PlayerState :=
  if p.IsPlaying = true ∧ p.Duration - 1 ≤ p.CurrentPos then
    (true, { p with IsPlaying := false })
  else
    (false, p)

/-- `Stop` (player file): kills and waits on the process (external effects),
then sets `IsPlaying` to `false`. -/
def stop (p : PlayerState) : PlayerState :=
  { p with IsPlaying := false }

/-- Go `strconv.Atoi` with the error discarded, as the `Play` duration parse
does, on the string's characters: an optional sign followed by one or more
digits yields that decimal value (clamped to the `int64` range on overflow,
which is the value Go returns alongside the range error); any other string
yields 0. -/
def goAtoi (cs : List Char) : Int :=
  let signed : Bool × List Char :=
    match cs with
    | '-' :: rest => (true, rest)
    | '+' :: rest => (false, rest)
    | _ => (false, cs)
  if signed.2.length = 0 ∨ ¬ signed.2.all Char.isDigit then 0
  else
    let mag : Int :=
      (signed.2.foldl (fun a c => a * 10 + (c.toNat - 48)) (0 : Nat) : Nat)
    let n : Int := if signed.1 then -mag else mag
    if n > 2 ^ 63 - 1 then 2 ^ 63 - 1
    else if n < -(2 ^ 63) then -(2 ^ 63)
    else n

/-- `strings.TrimSpace` on the characters: strip leading and trailing
whitespace. -/
def trimSpace (cs : List Char) : List Char :=
  ((cs.dropWhile Char.isWhitespace).reverse.dropWhile Char.isWhitespace).reverse

/-- `strings.Split(s, ":")` on the characters (the separator is a single
character): every occurrence of the separator ends a field, and the result
always has at least one field (splitting the empty string yields one empty
field), exactly as `strings.Split`. -/
def splitOnChar (sep : Char) : List Char → List (List Char)
  | [] => [[]]
  | c :: rest =>
    let r := splitOnChar sep rest
    if c = sep then [] :: r
    else (c :: r.headD []) :: r.tail

/-- The duration-resolution step of `Play(url, duration)` (player file):
`probeOutput` is the duration probe's standard output when the probe
succeeded (`none` models the probe failing).  The trimmed output is split on
`:`; a 2-part split parses as minutes/seconds, a 3-part split as
hours/minutes/seconds; the parsed value replaces the hint exactly when it is
positive. -/
def resolveDuration (probeOutput : Option String) (hint : Int) : Int :=
  match probeOutput with
  | none => hint
  | some out =>
    let durationStr := trimSpace out.toList
    let parts := splitOnChar ':' durationStr
    let newDuration : Int :=
      if parts.length = 2 then
        goAtoi (parts.getD 0 []) * 60 + goAtoi (parts.getD 1 [])
      else if parts.length = 3 then
        goAtoi (parts.getD 0 []) * 3600 + goAtoi (parts.getD 1 []) * 60 +
          goAtoi (parts.getD 2 [])
      else 0
    if newDuration > 0 then newDuration else hint

/-! ### Concrete fixtures used by scenarios, counterexamples and witnesses -/

def trackA : Track := { ID := "a", Title := "A", Artist := "ar", Duration := 100 }
def trackB : Track := { ID := "b", Title := "B", Artist := "ar", Duration := 110 }
def trackC : Track := { ID := "c", Title := "C", Artist := "ar", Duration := 120 }

/-- The `[A, B, C]` queue of the spec's scenarios: shuffle off, `RepeatNone`,
current index 0, empty history. -/
def queueABC : Queue :=
  { Tracks := [trackA, trackB, trackC]
    CurrentIndex := 0
    ShuffleMode := false
    RepeatMode := PlaybackMode.RepeatNone
    History := []
    ShuffleOrder := [] }

/-- `queueABC` with `RepeatOne`. -/
def queueABCRepeatOne : Queue :=
  { queueABC with RepeatMode := PlaybackMode.RepeatOne }

/-! ### C1 -/

/-- C1 counterexample: the claim says `NextTrack()` under `RepeatOne` with a
valid current index "pushes nothing onto history", but in the `[A,B,C]`
queue with `RepeatOne` and current index 0 the call appends 0 to the
previously empty history (queue.go pushes to history *before* the
repeat-mode dispatch). -/
theorem claim_C1_counterexample :
    queueABCRepeatOne.RepeatMode = PlaybackMode.RepeatOne ∧
    queueABCRepeatOne.CurrentIndex = 0 ∧
    queueABCRepeatOne.Tracks.length = 3 ∧
    queueABCRepeatOne.History = [] ∧
    (nextTrack queueABCRepeatOne).2.2.History = [0] := by
  decide

/-- C1 amended: for every queue with `RepeatMode = RepeatOne` and a valid
current index, `NextTrack()` returns the same (present) track that
`GetCurrentTrack()` returned before the call, reports ok, leaves
`CurrentIndex` (and the track list) unchanged, and pushes exactly the prior
current index onto history. -/
theorem claim_C1_theorem (q : Queue)
    (hmode : q.RepeatMode = PlaybackMode.RepeatOne)
    (h0 : 0 ≤ q.CurrentIndex)
    (hlt : q.CurrentIndex < (q.Tracks.length : Int)) :
    (nextTrack q).1 = getCurrentTrack q ∧
    (nextTrack q).1.isSome = true ∧
    (nextTrack q).2.1 = true ∧
    (nextTrack q).2.2.CurrentIndex = q.CurrentIndex ∧
    (nextTrack q).2.2.History = q.History ++ [q.CurrentIndex] ∧
    (nextTrack q).2.2.Tracks = q.Tracks := by
  have hlen : ¬ q.Tracks.length = 0 := by
    intro h
    rw [h] at hlt
    simp at hlt
    omega
  have hne : q.CurrentIndex ≠ -1 := by omega
  have hcond : ¬ (q.Tracks.length = 0 ∨ q.CurrentIndex < 0 ∨
      (q.Tracks.length : Int) ≤ q.CurrentIndex) := by
    push_neg
    exact ⟨hlen, by omega, by omega⟩
  have hgc : getCurrentTrack q = getAt q.Tracks q.CurrentIndex := by
    rw [getCurrentTrack, if_neg hcond]
  have hget : q.Tracks.get? q.CurrentIndex.toNat ≠ none := by
    simp only [Ne, List.get?_eq_none]
    omega
  have hsome : (getAt q.Tracks q.CurrentIndex).isSome = true := by
    rw [getAt, if_pos h0]
    exact Option.ne_none_iff_isSome.mp hget
  simp only [nextTrack, if_neg hlen, if_pos hne]
  simp [hmode, hne, hgc, hsome]

/-- C1 witness: the amended statement at the concrete `RepeatOne` queue. -/
theorem claim_C1_witness :
    (nextTrack queueABCRepeatOne).1 = getCurrentTrack queueABCRepeatOne ∧
    (nextTrack queueABCRepeatOne).1.isSome = true ∧
    (nextTrack queueABCRepeatOne).2.1 = true ∧
    (nextTrack queueABCRepeatOne).2.2.CurrentIndex = queueABCRepeatOne.CurrentIndex ∧
    (nextTrack queueABCRepeatOne).2.2.History =
      queueABCRepeatOne.History ++ [queueABCRepeatOne.CurrentIndex] ∧
    (nextTrack queueABCRepeatOne).2.2.Tracks = queueABCRepeatOne.Tracks :=
  claim_C1_theorem queueABCRepeatOne (by decide) (by decide) (by decide)

/-! ### C2 -/

/-- C2: the watcher advances (invokes the next-track callback) only when, at
the moment it observes the process exit, `IsPlaying` is still true and
`CurrentPos ≥ Duration - 1`; and after `Stop()` has cleared `IsPlaying`, the
watcher never advances — in particular not at position 50 of duration 200. -/
theorem claim_C2_theorem (pw p : PlayerState) :
    ((monitorPlayback pw).1 = true →
      pw.IsPlaying = true ∧ pw.Duration - 1 ≤ pw.CurrentPos) ∧
    (monitorPlayback (stop p)).1 = false ∧
    (monitorPlayback (stop p)).2 = stop p := by
  refine ⟨?_, ?_, ?_⟩
  · intro h
    by_cases hc : pw.IsPlaying = true ∧ pw.Duration - 1 ≤ pw.CurrentPos
    · exact hc
    · rw [monitorPlayback, if_neg hc] at h
      exact absurd h (by simp)
  · simp [monitorPlayback, stop]
  · simp [monitorPlayback, stop]

/-- C2 witness: the `Stop()` scenario at position 50 of duration 200. -/
theorem claim_C2_witness :
    (monitorPlayback
      (stop { IsPlaying := true, CurrentPos := 50, Duration := 200 })).1 = false :=
  (claim_C2_theorem { IsPlaying := true, CurrentPos := 50, Duration := 200 }
    { IsPlaying := true, CurrentPos := 50, Duration := 200 }).2.1

/-! ### C8 -/

/-- C8: `PlayTrack(index)` rejects every out-of-range index (in particular
`len(tracks)` and `-1`) leaving the whole queue state untouched, and accepts
every in-range index, pushing the prior current index onto history exactly
when it was not `-1` and selecting `index`; nothing else changes. -/
theorem claim_C8_theorem (q : Queue) (index : Int) :
    ((index < 0 ∨ (q.Tracks.length : Int) ≤ index) →
      playTrack index q = (false, q)) ∧
    (0 ≤ index → index < (q.Tracks.length : Int) →
      (playTrack index q).1 = true ∧
      (playTrack index q).2.CurrentIndex = index ∧
      (playTrack index q).2.History =
        (if q.CurrentIndex ≠ -1 then q.History ++ [q.CurrentIndex]
         else q.History) ∧
      (playTrack index q).2.Tracks = q.Tracks ∧
      (playTrack index q).2.ShuffleMode = q.ShuffleMode ∧
      (playTrack index q).2.ShuffleOrder = q.ShuffleOrder ∧
      (playTrack index q).2.RepeatMode = q.RepeatMode) := by
  constructor
  · intro h
    rw [playTrack, if_pos h]
  · intro h0 hlt
    have hc : ¬ (index < 0 ∨ (q.Tracks.length : Int) ≤ index) := by omega
    simp only [playTrack, if_neg hc]
    by_cases hci : q.CurrentIndex = -1
    · simp [hci]
    · simp [hci]

/-- C8 witness: rejection at index 3 (= the length) and acceptance at index 2
for the `[A,B,C]` queue. -/
theorem claim_C8_witness :
    playTrack 3 queueABC = (false, queueABC) ∧
    (playTrack 2 queueABC).1 = true ∧
    (playTrack 2 queueABC).2.CurrentIndex = 2 :=
  ⟨(claim_C8_theorem queueABC 3).1 (by decide),
   ((claim_C8_theorem queueABC 2).2 (by decide) (by decide)).1,
   ((claim_C8_theorem queueABC 2).2 (by decide) (by decide)).2.1⟩

/-! ### C9 -/

/-- C9: the duration probe's output overrides the hint exactly when it parses
to a positive value: a 2-part split parses as `minutes*60 + seconds`, a
3-part split as `hours*3600 + minutes*60 + seconds`, any other shape (and a
failed probe, and a non-positive parse) leaves the hint in effect; in
particular hint 200 with probe output `"3:45"` resolves to 225. -/
theorem claim_C9_theorem (out : String) (hint : Int) :
    (∀ m s, splitOnChar ':' (trimSpace out.toList) = [m, s] →
      resolveDuration (some out) hint =
        if goAtoi m * 60 + goAtoi s > 0 then goAtoi m * 60 + goAtoi s
        else hint) ∧
    (∀ hrs m s, splitOnChar ':' (trimSpace out.toList) = [hrs, m, s] →
      resolveDuration (some out) hint =
        if goAtoi hrs * 3600 + goAtoi m * 60 + goAtoi s > 0 then
          goAtoi hrs * 3600 + goAtoi m * 60 + goAtoi s
        else hint) ∧
    ((splitOnChar ':' (trimSpace out.toList)).length ≠ 2 →
      (splitOnChar ':' (trimSpace out.toList)).length ≠ 3 →
      resolveDuration (some out) hint = hint) ∧
    resolveDuration none hint = hint ∧
    resolveDuration (some "3:45") 200 = 225 := by
  refine ⟨?_, ?_, ?_, rfl, by decide⟩
  · intro m s hsplit
    simp only [String.toList] at hsplit
    simp [resolveDuration, hsplit]
  · intro hrs m s hsplit
    simp only [String.toList] at hsplit
    simp [resolveDuration, hsplit]
  · intro h2 h3
    simp only [String.toList] at h2 h3
    simp only [resolveDuration, String.toList]
    rw [if_neg h2, if_neg h3]
    simp

/-- C9 witness: the `"3:45"` scenario through the 2-part conjunct, and the
failed-probe fallback. -/
theorem claim_C9_witness :
    resolveDuration (some "3:45") 200 =
      (if goAtoi ['3'] * 60 + goAtoi ['4', '5'] > 0 then
        goAtoi ['3'] * 60 + goAtoi ['4', '5']
       else 200) ∧
    resolveDuration none (200 : Int) = 200 :=
  ⟨(claim_C9_theorem ("3:45") 200).1 ['3'] ['4', '5'] (by decide),
   (claim_C9_theorem ("3:45") 200).2.2.2.1⟩

/-! ### Helper lemmas about the navigation code paths -/

lemma findIdxQ_isSome_of_mem {l : List Int} {a : Int} (h : a ∈ l) :
    ∃ i, l.findIdx? (fun x => x = a) = some i := by
  cases he : l.findIdx? (fun x => x = a) with
  | some i => exact ⟨i, rfl⟩
  | none =>
    rw [List.findIdx?_eq_none_iff] at he
    have hx := he a h
    simp at hx

lemma findIdxQ_spec {l : List Int} {a : Int} {i : Nat}
    (h : l.findIdx? (fun x => x = a) = some i) :
    i < l.length ∧ l.getD i 0 = a := by
  rw [List.findIdx?_eq_some_iff_getElem] at h
  obtain ⟨hlt, hpi, -⟩ := h
  refine ⟨hlt, ?_⟩
  rw [List.getD_eq_getElem l 0 hlt]
  simpa using hpi

/-- `nextTrack` on the empty queue. -/
lemma nextTrack_empty (q : Queue) (h : q.Tracks.length = 0) :
    nextTrack q = (none, false, q) := by
  simp [nextTrack, h]

/-- `nextTrack` under `RepeatOne` with a current track. -/
lemma nextTrack_repeatOne (q : Queue) (hlen : ¬ q.Tracks.length = 0)
    (hci : q.CurrentIndex ≠ -1)
    (hone : q.RepeatMode = PlaybackMode.RepeatOne) :
    nextTrack q = (getAt q.Tracks q.CurrentIndex, true,
      { q with History := q.History ++ [q.CurrentIndex] }) := by
  simp [nextTrack, hlen, hci, hone]

/-- `nextTrack`, sequential mode, middle of the list. -/
lemma nextTrack_seq_mid (q : Queue) (hlen : ¬ q.Tracks.length = 0)
    (hci : q.CurrentIndex ≠ -1)
    (hone : ¬ q.RepeatMode = PlaybackMode.RepeatOne)
    (hsm : q.ShuffleMode = false)
    (hmid : ¬ q.CurrentIndex = (q.Tracks.length : Int) - 1) :
    nextTrack q = (getAt q.Tracks (q.CurrentIndex + 1), true,
      { q with History := q.History ++ [q.CurrentIndex],
               CurrentIndex := q.CurrentIndex + 1 }) := by
  simp [nextTrack, hlen, hci, hone, hsm, hmid]

/-- `nextTrack`, sequential mode, last index, `RepeatAll`: wrap to 0. -/
lemma nextTrack_seq_wrap (q : Queue) (hlen : ¬ q.Tracks.length = 0)
    (hci : q.CurrentIndex ≠ -1)
    (hone : ¬ q.RepeatMode = PlaybackMode.RepeatOne)
    (hsm : q.ShuffleMode = false)
    (hlast : q.CurrentIndex = (q.Tracks.length : Int) - 1)
    (hall : q.RepeatMode = PlaybackMode.RepeatAll) :
    nextTrack q = (getAt q.Tracks 0, true,
      { q with History := q.History ++ [q.CurrentIndex],
               CurrentIndex := 0 }) := by
  simp [nextTrack, hlen, hci, hone, hsm, hlast, hall]

/-- `nextTrack`, sequential mode, last index, no repeat: report no track. -/
lemma nextTrack_seq_stop (q : Queue) (hlen : ¬ q.Tracks.length = 0)
    (hci : q.CurrentIndex ≠ -1)
    (hone : ¬ q.RepeatMode = PlaybackMode.RepeatOne)
    (hsm : q.ShuffleMode = false)
    (hlast : q.CurrentIndex = (q.Tracks.length : Int) - 1)
    (hall : ¬ q.RepeatMode = PlaybackMode.RepeatAll) :
    nextTrack q = (none, false,
      { q with History := q.History ++ [q.CurrentIndex] }) := by
  simp [nextTrack, hlen, hci, hone, hsm, hlast, hall]

/-- `nextTrack`, shuffle mode, current position found mid-order. -/
lemma nextTrack_shuffle_mid (q : Queue) (hlen : ¬ q.Tracks.length = 0)
    (hci : q.CurrentIndex ≠ -1)
    (hone : ¬ q.RepeatMode = PlaybackMode.RepeatOne)
    (hsm : q.ShuffleMode = true) {p : Nat}
    (hp : q.ShuffleOrder.findIdx? (fun idx => idx = q.CurrentIndex) = some p)
    (hplast : ¬ (p : Int) = (q.ShuffleOrder.length : Int) - 1) :
    nextTrack q = (getAt q.Tracks (q.ShuffleOrder.getD (p + 1) 0), true,
      { q with History := q.History ++ [q.CurrentIndex],
               CurrentIndex := q.ShuffleOrder.getD (p + 1) 0 }) := by
  have ht : ((p : Int) + 1).toNat = p + 1 := by omega
  simp [nextTrack, hlen, hci, hone, hsm, hp, hplast, ht]

/-- `nextTrack`, shuffle mode, last position, `RepeatAll`: wrap to the first
entry of the shuffle order. -/
lemma nextTrack_shuffle_wrap (q : Queue) (hlen : ¬ q.Tracks.length = 0)
    (hci : q.CurrentIndex ≠ -1)
    (hone : ¬ q.RepeatMode = PlaybackMode.RepeatOne)
    (hsm : q.ShuffleMode = true) {p : Nat}
    (hp : q.ShuffleOrder.findIdx? (fun idx => idx = q.CurrentIndex) = some p)
    (hplast : (p : Int) = (q.ShuffleOrder.length : Int) - 1)
    (hall : q.RepeatMode = PlaybackMode.RepeatAll) :
    nextTrack q = (getAt q.Tracks (q.ShuffleOrder.getD 0 0), true,
      { q with History := q.History ++ [q.CurrentIndex],
               CurrentIndex := q.ShuffleOrder.getD 0 0 }) := by
  simp [nextTrack, hlen, hci, hone, hsm, hp, hplast, hall]

/-- `nextTrack`, shuffle mode, last position, no repeat: report no track. -/
lemma nextTrack_shuffle_stop (q : Queue) (hlen : ¬ q.Tracks.length = 0)
    (hci : q.CurrentIndex ≠ -1)
    (hone : ¬ q.RepeatMode = PlaybackMode.RepeatOne)
    (hsm : q.ShuffleMode = true) {p : Nat}
    (hp : q.ShuffleOrder.findIdx? (fun idx => idx = q.CurrentIndex) = some p)
    (hplast : (p : Int) = (q.ShuffleOrder.length : Int) - 1)
    (hall : ¬ q.RepeatMode = PlaybackMode.RepeatAll) :
    nextTrack q = (none, false,
      { q with History := q.History ++ [q.CurrentIndex] }) := by
  simp [nextTrack, hlen, hci, hone, hsm, hp, hplast, hall]

/-! ### C3 -/

/-- "Last of the play order": the last index with shuffle off, the last
shuffle-order position with shuffle on. -/
def atEndOfPlayOrder (q : Queue) : Prop :=
  if q.ShuffleMode = true then
    q.ShuffleOrder.findIdx? (fun idx => idx = q.CurrentIndex) =
      some (q.ShuffleOrder.length - 1)
  else
    q.CurrentIndex = (q.Tracks.length : Int) - 1

/-- C3: under the documented invariants, `NextTrack()` reports no next track
only when the queue is empty or the current position is the last of the play
order under `RepeatNone`, and in that case `CurrentIndex` is unchanged; the
`[A,B,C]`/`RepeatNone` scenario runs B, C, then fails with index still 2. -/
theorem claim_C3_theorem (q : Queue)
    (hvalid : q.Tracks ≠ [] →
      0 ≤ q.CurrentIndex ∧ q.CurrentIndex < (q.Tracks.length : Int))
    (hshuf : q.ShuffleMode = true →
      q.ShuffleOrder.Perm ((List.range q.Tracks.length).map Int.ofNat)) :
    ((nextTrack q).2.1 = false →
      (q.Tracks = [] ∨
        (q.RepeatMode = PlaybackMode.RepeatNone ∧ atEndOfPlayOrder q)) ∧
      (nextTrack q).2.2.CurrentIndex = q.CurrentIndex) ∧
    ((nextTrack queueABC).1 = some trackB ∧
     (nextTrack queueABC).2.1 = true ∧
     (nextTrack queueABC).2.2.CurrentIndex = 1 ∧
     (nextTrack (nextTrack queueABC).2.2).1 = some trackC ∧
     (nextTrack (nextTrack queueABC).2.2).2.1 = true ∧
     (nextTrack (nextTrack queueABC).2.2).2.2.CurrentIndex = 2 ∧
     (nextTrack (nextTrack (nextTrack queueABC).2.2).2.2).1 = none ∧
     (nextTrack (nextTrack (nextTrack queueABC).2.2).2.2).2.1 = false ∧
     (nextTrack (nextTrack (nextTrack queueABC).2.2).2.2).2.2.CurrentIndex = 2) := by
  refine ⟨?_, by decide⟩
  intro hfalse
  by_cases hlen : q.Tracks.length = 0
  · rw [nextTrack_empty q hlen]
    exact ⟨Or.inl (List.length_eq_zero.mp hlen), rfl⟩
  · have hne : q.Tracks ≠ [] := fun h => hlen (by simp [h])
    obtain ⟨h0, hlt⟩ := hvalid hne
    have hci : q.CurrentIndex ≠ -1 := by omega
    by_cases hone : q.RepeatMode = PlaybackMode.RepeatOne
    · rw [nextTrack_repeatOne q hlen hci hone] at hfalse
      simp at hfalse
    · by_cases hsm : q.ShuffleMode = true
      · -- shuffle path: the current index occurs in the permutation
        have hmem : q.CurrentIndex ∈ q.ShuffleOrder := by
          refine ((hshuf hsm).mem_iff).mpr ?_
          refine List.mem_map.mpr ⟨q.CurrentIndex.toNat, ?_, ?_⟩
          · exact List.mem_range.mpr (by omega)
          · simpa using Int.toNat_of_nonneg h0
        obtain ⟨p, hp⟩ := findIdxQ_isSome_of_mem hmem
        by_cases hplast : (p : Int) = (q.ShuffleOrder.length : Int) - 1
        · by_cases hall : q.RepeatMode = PlaybackMode.RepeatAll
          · rw [nextTrack_shuffle_wrap q hlen hci hone hsm hp hplast hall]
              at hfalse
            simp at hfalse
          · rw [nextTrack_shuffle_stop q hlen hci hone hsm hp hplast hall]
            refine ⟨Or.inr ⟨?_, ?_⟩, rfl⟩
            · cases hmode : q.RepeatMode <;> simp_all
            · have hplt : p < q.ShuffleOrder.length := (findIdxQ_spec hp).1
              rw [atEndOfPlayOrder, if_pos hsm]
              have : p = q.ShuffleOrder.length - 1 := by omega
              rw [← this]
              exact hp
        · rw [nextTrack_shuffle_mid q hlen hci hone hsm hp hplast] at hfalse
          simp at hfalse
      · have hsm' : q.ShuffleMode = false := by
          cases hb : q.ShuffleMode
          · rfl
          · exact absurd hb hsm
        by_cases hlast : q.CurrentIndex = (q.Tracks.length : Int) - 1
        · by_cases hall : q.RepeatMode = PlaybackMode.RepeatAll
          · rw [nextTrack_seq_wrap q hlen hci hone hsm' hlast hall] at hfalse
            simp at hfalse
          · rw [nextTrack_seq_stop q hlen hci hone hsm' hlast hall]
            refine ⟨Or.inr ⟨?_, ?_⟩, rfl⟩
            · cases hmode : q.RepeatMode <;> simp_all
            · rw [atEndOfPlayOrder, if_neg (by simp [hsm'])]
              exact hlast
        · rw [nextTrack_seq_mid q hlen hci hone hsm' hlast] at hfalse
          simp at hfalse

/-- C3 witness: the general part applied to the `[A,B,C]` queue moved to its
last index, where `NextTrack()` does fail and leaves the index at 2. -/
theorem claim_C3_witness :
    (({ queueABC with CurrentIndex := 2 } : Queue).Tracks = [] ∨
      (({ queueABC with CurrentIndex := 2 } : Queue).RepeatMode =
          PlaybackMode.RepeatNone ∧
        atEndOfPlayOrder { queueABC with CurrentIndex := 2 })) ∧
    (nextTrack { queueABC with CurrentIndex := 2 }).2.2.CurrentIndex =
      ({ queueABC with CurrentIndex := 2 } : Queue).CurrentIndex :=
  (claim_C3_theorem { queueABC with CurrentIndex := 2 }
    (fun _ => by decide) (fun h => absurd h (by decide))).1 (by decide)

/-! ### C4 -/

/-- One `NextTrack()` under `RepeatAll`, shuffle off, valid index: the track
list and modes are untouched and the index advances by one modulo the
length. -/
lemma nextTrack_all_step (q : Queue) (hne : q.Tracks ≠ [])
    (hall : q.RepeatMode = PlaybackMode.RepeatAll)
    (hsm : q.ShuffleMode = false)
    (h0 : 0 ≤ q.CurrentIndex) (hlt : q.CurrentIndex < (q.Tracks.length : Int)) :
    (nextTrack q).2.2.Tracks = q.Tracks ∧
    (nextTrack q).2.2.RepeatMode = q.RepeatMode ∧
    (nextTrack q).2.2.ShuffleMode = q.ShuffleMode ∧
    (nextTrack q).2.2.CurrentIndex =
      (q.CurrentIndex + 1) % (q.Tracks.length : Int) := by
  have hlen : ¬ q.Tracks.length = 0 := fun h => hne (List.length_eq_zero.mp h)
  have hci : q.CurrentIndex ≠ -1 := by omega
  have hone : ¬ q.RepeatMode = PlaybackMode.RepeatOne := by simp [hall]
  by_cases hlast : q.CurrentIndex = (q.Tracks.length : Int) - 1
  · rw [nextTrack_seq_wrap q hlen hci hone hsm hlast hall]
    refine ⟨rfl, rfl, rfl, ?_⟩
    rw [hlast]
    simp
  · rw [nextTrack_seq_mid q hlen hci hone hsm hlast]
    refine ⟨rfl, rfl, rfl, ?_⟩
    show q.CurrentIndex + 1 = (q.CurrentIndex + 1) % (q.Tracks.length : Int)
    exact (Int.emod_eq_of_lt (by omega) (by omega)).symm

/-- Iterating `NextTrack()` under `RepeatAll`, shuffle off: after `k` calls
the index is the start index plus `k`, modulo the length. -/
lemma nextTrack_all_iter (q : Queue) (hne : q.Tracks ≠ [])
    (hall : q.RepeatMode = PlaybackMode.RepeatAll)
    (hsm : q.ShuffleMode = false)
    (h0 : 0 ≤ q.CurrentIndex) (hlt : q.CurrentIndex < (q.Tracks.length : Int))
    (k : Nat) :
    ((fun qq => (nextTrack qq).2.2)^[k] q).Tracks = q.Tracks ∧
    ((fun qq => (nextTrack qq).2.2)^[k] q).RepeatMode = q.RepeatMode ∧
    ((fun qq => (nextTrack qq).2.2)^[k] q).ShuffleMode = q.ShuffleMode ∧
    ((fun qq => (nextTrack qq).2.2)^[k] q).CurrentIndex =
      (q.CurrentIndex + k) % (q.Tracks.length : Int) := by
  have hlenpos : (0 : Int) < q.Tracks.length := by
    have : q.Tracks.length ≠ 0 := fun h => hne (List.length_eq_zero.mp h)
    omega
  induction k with
  | zero =>
    refine ⟨rfl, rfl, rfl, ?_⟩
    simpa using (Int.emod_eq_of_lt h0 hlt).symm
  | succ n ih =>
    obtain ⟨hT, hR, hS, hC⟩ := ih
    rw [Function.iterate_succ_apply']
    have h0n : 0 ≤ ((fun qq => (nextTrack qq).2.2)^[n] q).CurrentIndex := by
      rw [hC]
      exact Int.emod_nonneg _ (by omega)
    have hltn : ((fun qq => (nextTrack qq).2.2)^[n] q).CurrentIndex <
        ((((fun qq => (nextTrack qq).2.2)^[n] q).Tracks.length : Nat) : Int) := by
      rw [hC, hT]
      exact Int.emod_lt_of_pos _ hlenpos
    have step := nextTrack_all_step ((fun qq => (nextTrack qq).2.2)^[n] q)
      (by rw [hT]; exact hne) (by rw [hR]; exact hall) (by rw [hS]; exact hsm)
      h0n hltn
    obtain ⟨sT, sR, sS, sC⟩ := step
    refine ⟨by rw [sT, hT], by rw [sR, hR], by rw [sS, hS], ?_⟩
    rw [sC, hC, hT, Int.emod_add_emod]
    congr 1
    push_cast
    ring

/-- `queueABC` with `RepeatAll`. -/
def queueABCRepeatAll : Queue :=
  { queueABC with RepeatMode := PlaybackMode.RepeatAll }

/-- C4: for every non-empty queue with `RepeatAll`, shuffle off and a valid
current index, `len(tracks)` calls of `NextTrack()` return to the starting
index; and in the `[A,B,C]` instance the third call (from C) wraps to A
(index 0) with history `[0,1,2]`. -/
theorem claim_C4_theorem (q : Queue) (hne : q.Tracks ≠ [])
    (hall : q.RepeatMode = PlaybackMode.RepeatAll)
    (hsm : q.ShuffleMode = false)
    (h0 : 0 ≤ q.CurrentIndex) (hlt : q.CurrentIndex < (q.Tracks.length : Int)) :
    ((fun qq => (nextTrack qq).2.2)^[q.Tracks.length] q).CurrentIndex
        = q.CurrentIndex ∧
    ((nextTrack (nextTrack (nextTrack queueABCRepeatAll).2.2).2.2).1 =
        some trackA ∧
     (nextTrack (nextTrack (nextTrack queueABCRepeatAll).2.2).2.2).2.1 = true ∧
     (nextTrack (nextTrack (nextTrack queueABCRepeatAll).2.2).2.2).2.2.CurrentIndex =
        0 ∧
     (nextTrack (nextTrack (nextTrack queueABCRepeatAll).2.2).2.2).2.2.History =
        [0, 1, 2]) := by
  refine ⟨?_, by decide⟩
  have h := (nextTrack_all_iter q hne hall hsm h0 hlt q.Tracks.length).2.2.2
  rw [h]
  have hstep : (q.CurrentIndex + (q.Tracks.length : Int)) %
      (q.Tracks.length : Int) = q.CurrentIndex % (q.Tracks.length : Int) := by
    simpa using @Int.add_mul_emod_self_left q.CurrentIndex (q.Tracks.length : Int) 1
  rw [hstep]
  exact Int.emod_eq_of_lt h0 hlt

/-- C4 witness: cycle closure on the concrete `[A,B,C]` `RepeatAll` queue. -/
theorem claim_C4_witness :
    ((fun qq => (nextTrack qq).2.2)^[queueABCRepeatAll.Tracks.length]
        queueABCRepeatAll).CurrentIndex = queueABCRepeatAll.CurrentIndex :=
  (claim_C4_theorem queueABCRepeatAll (by decide) (by decide) (by decide)
    (by decide) (by decide)).1

/-! ### C10 -/

/-- `PlayPrevious` (player file) reports an error iff `PreviousTrack`
reported not-ok or a missing track. -/
def playPreviousFails (q : Queue) : Bool :=
  !(previousTrack q).2.1 || (previousTrack q).1.isNone

lemma getLastD_mem : ∀ (l : List Int) (d : Int), l ≠ [] → l.getLastD d ∈ l := by
  intro l
  induction l with
  | nil => intro d h; exact absurd rfl h
  | cons a t ih =>
    intro d _
    rw [List.getLastD_cons]
    by_cases ht : t = []
    · simp [ht]
    · exact List.mem_cons_of_mem a (ih a ht)

/-- C10: on a non-empty queue with a valid current index (and a history of
valid indices, which is all the operations ever record), `PreviousTrack()`
always succeeds with a present track, so `PlayPrevious` can fail only on the
empty queue; with empty history it replays the current track (shuffle on, or
at index 0 without `RepeatAll`), wraps to the last index (at index 0 with
`RepeatAll`), or steps back by one. -/
theorem claim_C10_theorem (q : Queue) (hne : q.Tracks ≠ [])
    (h0 : 0 ≤ q.CurrentIndex) (hlt : q.CurrentIndex < (q.Tracks.length : Int))
    (hhist : ∀ i ∈ q.History, 0 ≤ i ∧ i < (q.Tracks.length : Int)) :
    ((previousTrack q).2.1 = true ∧ (previousTrack q).1.isSome = true) ∧
    playPreviousFails q = false ∧
    (∀ qq : Queue, qq.Tracks = [] →
      (previousTrack qq).2.1 = false ∧ playPreviousFails qq = true) ∧
    (q.History = [] → q.ShuffleMode = true →
      (previousTrack q).1 = getAt q.Tracks q.CurrentIndex ∧
      (previousTrack q).2.2 = q) ∧
    (q.History = [] → q.ShuffleMode = false → q.CurrentIndex = 0 →
      q.RepeatMode = PlaybackMode.RepeatAll →
      (previousTrack q).2.2.CurrentIndex = (q.Tracks.length : Int) - 1) ∧
    (q.History = [] → q.ShuffleMode = false → q.CurrentIndex = 0 →
      ¬ q.RepeatMode = PlaybackMode.RepeatAll →
      (previousTrack q).1 = getAt q.Tracks q.CurrentIndex ∧
      (previousTrack q).2.2 = q) ∧
    (q.History = [] → q.ShuffleMode = false → 0 < q.CurrentIndex →
      (previousTrack q).2.2.CurrentIndex = q.CurrentIndex - 1) := by
  have hlen : ¬ q.Tracks.length = 0 := fun h => hne (List.length_eq_zero.mp h)
  have hsome : ∀ i : Int, 0 ≤ i → i < (q.Tracks.length : Int) →
      (getAt q.Tracks i).isSome = true := by
    intro i hi hilt
    rw [getAt, if_pos hi]
    have hnat : i.toNat < q.Tracks.length := by omega
    rw [List.get?_eq_get hnat]
    rfl
  have hmain : (previousTrack q).2.1 = true ∧
      (previousTrack q).1.isSome = true := by
    by_cases hh : 0 < q.History.length
    · have hmem := getLastD_mem q.History 0
        (fun h => by rw [h] at hh; exact absurd hh (by simp))
      obtain ⟨hi0, hilt⟩ := hhist _ hmem
      simp only [previousTrack, if_neg hlen, if_pos hh]
      exact ⟨trivial, hsome _ hi0 hilt⟩
    · by_cases hs : q.ShuffleMode = true
      · simp only [previousTrack, if_neg hlen, if_neg hh, if_pos hs]
        exact ⟨trivial, hsome _ h0 hlt⟩
      · by_cases hc : q.CurrentIndex ≤ 0
        · by_cases hr : q.RepeatMode = PlaybackMode.RepeatAll
          · simp only [previousTrack, if_neg hlen, if_neg hh, if_neg hs,
              if_pos hc, if_pos hr]
            exact ⟨trivial, hsome _ (by omega) (by omega)⟩
          · simp only [previousTrack, if_neg hlen, if_neg hh, if_neg hs,
              if_pos hc, if_neg hr]
            exact ⟨trivial, hsome _ h0 hlt⟩
        · simp only [previousTrack, if_neg hlen, if_neg hh, if_neg hs,
            if_neg hc]
          exact ⟨trivial, hsome _ (by omega) (by omega)⟩
  refine ⟨hmain, ?_, ?_, ?_, ?_, ?_, ?_⟩
  · obtain ⟨x, hx⟩ := Option.isSome_iff_exists.mp hmain.2
    rw [playPreviousFails, hmain.1, hx]
    rfl
  · intro qq hqq
    have hz : qq.Tracks.length = 0 := by simp [hqq]
    constructor
    · simp [previousTrack, hz]
    · rw [playPreviousFails]
      simp [previousTrack, hz]
  · intro hH hs
    have hh : ¬ 0 < q.History.length := by simp [hH]
    simp only [previousTrack, if_neg hlen, if_neg hh, if_pos hs]
    exact ⟨trivial, trivial⟩
  · intro hH hs hc0 hr
    have hh : ¬ 0 < q.History.length := by simp [hH]
    have hs' : ¬ q.ShuffleMode = true := by simp [hs]
    have hc : q.CurrentIndex ≤ 0 := by omega
    simp only [previousTrack, if_neg hlen, if_neg hh, if_neg hs', if_pos hc,
      if_pos hr]
  · intro hH hs hc0 hr
    have hh : ¬ 0 < q.History.length := by simp [hH]
    have hs' : ¬ q.ShuffleMode = true := by simp [hs]
    have hc : q.CurrentIndex ≤ 0 := by omega
    simp only [previousTrack, if_neg hlen, if_neg hh, if_neg hs', if_pos hc,
      if_neg hr]
    exact ⟨trivial, trivial⟩
  · intro hH hs hcpos
    have hh : ¬ 0 < q.History.length := by simp [hH]
    have hs' : ¬ q.ShuffleMode = true := by simp [hs]
    have hc : ¬ q.CurrentIndex ≤ 0 := by omega
    simp only [previousTrack, if_neg hlen, if_neg hh, if_neg hs', if_neg hc]

/-- C10 witness: the `[A,B,C]` queue at index 0 with empty history: previous
succeeds (replaying A) and `PlayPrevious` does not fail. -/
theorem claim_C10_witness :
    ((previousTrack queueABC).2.1 = true ∧
      (previousTrack queueABC).1.isSome = true) ∧
    playPreviousFails queueABC = false :=
  ⟨(claim_C10_theorem queueABC (by decide) (by decide) (by decide)
      (by intro i hi; simp [queueABC] at hi)).1,
   (claim_C10_theorem queueABC (by decide) (by decide) (by decide)
      (by intro i hi; simp [queueABC] at hi)).2.1⟩

/-! ### C5 -/

lemma getD_zero_set_zero (l : List Int) (a d : Int) (h : l ≠ []) :
    (l.set 0 a).getD 0 d = a := by
  cases l with
  | nil => exact absurd rfl h
  | cons x xs => rfl

/-- Turning shuffle on (from off) with a valid current track keeps the
current index and the track list; the mode becomes `true`. -/
lemma toggleShuffleMode_on (q : Queue) (shuf : List Int → List Int)
    (hperm : (shuf ((List.range q.Tracks.length).map Int.ofNat)).Perm
      ((List.range q.Tracks.length).map Int.ofNat))
    (hsm : q.ShuffleMode = false) (hne : q.Tracks ≠ [])
    (h0 : 0 ≤ q.CurrentIndex) (hlt : q.CurrentIndex < (q.Tracks.length : Int)) :
    (toggleShuffleMode shuf q).CurrentIndex = q.CurrentIndex ∧
    (toggleShuffleMode shuf q).ShuffleMode = true ∧
    (toggleShuffleMode shuf q).Tracks = q.Tracks ∧
    (toggleShuffleMode shuf q).History = [] := by
  have hlen : ¬ q.Tracks.length = 0 := fun h => hne (List.length_eq_zero.mp h)
  have hcond : ¬ (q.Tracks.length = 0 ∨ q.CurrentIndex < 0 ∨
      (q.Tracks.length : Int) ≤ q.CurrentIndex) := by
    push_neg
    exact ⟨hlen, by omega, by omega⟩
  have hnat : q.CurrentIndex.toNat < q.Tracks.length := by omega
  have hgc : getCurrentTrack { q with ShuffleMode := true } =
      some (q.Tracks.get ⟨q.CurrentIndex.toNat, hnat⟩) := by
    rw [getCurrentTrack]
    rw [if_neg hcond]
    rw [getAt, if_pos h0]
    exact List.get?_eq_get hnat
  have hmem : q.CurrentIndex ∈ shuf ((List.range q.Tracks.length).map Int.ofNat) := by
    refine (hperm.mem_iff).mpr ?_
    refine List.mem_map.mpr ⟨q.CurrentIndex.toNat, ?_, ?_⟩
    · exact List.mem_range.mpr hnat
    · simpa using Int.toNat_of_nonneg h0
  obtain ⟨i, hi⟩ := findIdxQ_isSome_of_mem hmem
  have hgetD := (findIdxQ_spec hi).2
  have hne1 : (shuf ((List.range q.Tracks.length).map Int.ofNat)).set i
      ((shuf ((List.range q.Tracks.length).map Int.ofNat)).getD 0 0) ≠ [] := by
    intro h
    have := congrArg List.length h
    rw [List.length_set] at this
    have hl := hperm.length_eq
    simp at this
    rw [this] at hl
    simp at hl
    omega
  simp only [toggleShuffleMode, hsm, Bool.not_false, hgc, hi, if_true]
  refine ⟨?_, by trivial, by trivial, by trivial⟩
  rw [hgetD, getD_zero_set_zero _ _ _ hne1]

/-- Turning shuffle off with a valid current index and pairwise-distinct
track IDs restores the current index by the ID scan (the list has not
moved, so the first ID match is the current index itself). -/
lemma toggleShuffleMode_off (q : Queue) (shuf : List Int → List Int)
    (hsm : q.ShuffleMode = true)
    (h0 : 0 ≤ q.CurrentIndex) (hlt : q.CurrentIndex < (q.Tracks.length : Int))
    (hids : (q.Tracks.map Track.ID).Nodup) :
    (toggleShuffleMode shuf q).CurrentIndex = q.CurrentIndex ∧
    (toggleShuffleMode shuf q).ShuffleMode = false ∧
    (toggleShuffleMode shuf q).Tracks = q.Tracks ∧
    (toggleShuffleMode shuf q).ShuffleOrder = [] := by
  have hlen : ¬ q.Tracks.length = 0 := by omega
  have hci : q.CurrentIndex ≠ -1 := by omega
  have hcond : ¬ (q.Tracks.length = 0 ∨ q.CurrentIndex < 0 ∨
      (q.Tracks.length : Int) ≤ q.CurrentIndex) := by
    push_neg
    exact ⟨hlen, by omega, by omega⟩
  have hnat : q.CurrentIndex.toNat < q.Tracks.length := by omega
  have hgc : getCurrentTrack { q with ShuffleMode := false } =
      some (q.Tracks.get ⟨q.CurrentIndex.toNat, hnat⟩) := by
    rw [getCurrentTrack]
    rw [if_neg hcond]
    rw [getAt, if_pos h0]
    exact List.get?_eq_get hnat
  have hfind : q.Tracks.findIdx?
      (fun t => t.ID = q.Tracks[q.CurrentIndex.toNat].ID) =
      some q.CurrentIndex.toNat := by
    rw [List.findIdx?_eq_some_iff_getElem]
    refine ⟨hnat, by simp, ?_⟩
    intro j hj
    simp only [decide_eq_true_eq]
    intro heq
    have hjlen : j < q.Tracks.length := lt_trans hj hnat
    have hmap : (q.Tracks.map Track.ID).get ⟨j, by simpa using hjlen⟩ =
        (q.Tracks.map Track.ID).get ⟨q.CurrentIndex.toNat, by simpa using hnat⟩ := by
      simpa using heq
    have hfin := (List.Nodup.get_inj_iff hids).mp hmap
    have : j = q.CurrentIndex.toNat := congrArg Fin.val hfin
    omega
  simp [toggleShuffleMode, hsm, hgc, hfind, hci, Int.toNat_of_nonneg h0]

/-- C5: toggling shuffle twice (off → on → off) restores the current index,
for every permutation the first toggle may draw, on every non-empty queue
with pairwise-distinct track IDs and a valid current index; the track list
is unchanged and shuffle ends up off. -/
theorem claim_C5_theorem (q : Queue) (shuf1 shuf2 : List Int → List Int)
    (hperm : ∀ l, (shuf1 l).Perm l)
    (hne : q.Tracks ≠ []) (hsm : q.ShuffleMode = false)
    (h0 : 0 ≤ q.CurrentIndex) (hlt : q.CurrentIndex < (q.Tracks.length : Int))
    (hids : (q.Tracks.map Track.ID).Nodup) :
    (toggleShuffleMode shuf2 (toggleShuffleMode shuf1 q)).CurrentIndex =
      q.CurrentIndex ∧
    (toggleShuffleMode shuf2 (toggleShuffleMode shuf1 q)).ShuffleMode = false ∧
    (toggleShuffleMode shuf2 (toggleShuffleMode shuf1 q)).Tracks = q.Tracks := by
  obtain ⟨hC1, hS1, hT1, -⟩ :=
    toggleShuffleMode_on q shuf1 (hperm _) hsm hne h0 hlt
  have hoff := toggleShuffleMode_off (toggleShuffleMode shuf1 q) shuf2 hS1
    (by rw [hC1]; exact h0) (by rw [hC1, hT1]; exact hlt)
    (by rw [hT1]; exact hids)
  obtain ⟨hC2, hS2, hT2, -⟩ := hoff
  exact ⟨by rw [hC2, hC1], hS2, by rw [hT2, hT1]⟩

/-- C5 witness: the double toggle on the `[A,B,C]` queue with the identity
draw. -/
theorem claim_C5_witness :
    (toggleShuffleMode (fun l => l)
      (toggleShuffleMode (fun l => l) queueABC)).CurrentIndex =
      queueABC.CurrentIndex :=
  (claim_C5_theorem queueABC (fun l => l) (fun l => l)
    (fun l => List.Perm.refl l) (by decide) (by decide) (by decide)
    (by decide) (by decide)).1

/-! ### C7: the shuffle-order invariant -/

/-- The documented invariant: while shuffle is on, `ShuffleOrder` is a
permutation of the valid indices `0..len(tracks)-1`; while it is off,
`ShuffleOrder` is empty. -/
def ShuffleInv (q : Queue) : Prop :=
  (q.ShuffleMode = true →
    q.ShuffleOrder.Perm ((List.range q.Tracks.length).map Int.ofNat)) ∧
  (q.ShuffleMode = false → q.ShuffleOrder = [])

/-- Swapping two entries of a list (the parallel-assignment swap of
`ToggleShuffleMode`, written with two `set`s) is a permutation. -/
lemma set_set_swap_perm (l : List Int) (i : Nat) (h : i < l.length) :
    ((l.set i (l.getD 0 0)).set 0 (l.getD i 0)).Perm l := by
  cases l with
  | nil => simp at h
  | cons x xs =>
    cases i with
    | zero => simp
    | succ j =>
      have hj : j < xs.length := by simpa using h
      have hd0 : (x :: xs).getD 0 0 = x := rfl
      have hdj : (x :: xs).getD (j + 1) 0 = xs.getD j 0 := rfl
      have hgetD : xs.getD j 0 = xs.get ⟨j, hj⟩ := by
        rw [List.getD_eq_getElem xs 0 hj]
        simp
      rw [hd0, hdj, hgetD]
      show List.Perm (xs.get ⟨j, hj⟩ :: xs.set j x) (x :: xs)
      have hset : xs.set j x = xs.take j ++ x :: xs.drop (j + 1) :=
        List.set_eq_take_cons_drop x hj
      have hxs : xs = xs.take j ++ xs.get ⟨j, hj⟩ :: xs.drop (j + 1) := by
        conv_lhs => rw [← List.take_append_drop j xs]
        congr 1
        rw [← List.getElem_cons_drop xs j hj]
        simp
      rw [hset]
      conv_rhs => rw [hxs]
      exact ((List.Perm.cons _ List.perm_middle).trans
        (List.Perm.swap _ _ _)).trans (List.Perm.cons _ List.perm_middle.symm)

/-- `shuffleSegment` permutes its input whenever the draw permutes the
segment. -/
lemma shuffleSegment_perm (shuf : List Int → List Int)
    (hperm : ∀ l, (shuf l).Perm l) (s e : Nat) (l : List Int) :
    (shuffleSegment shuf s e l).Perm l := by
  rw [shuffleSegment]
  by_cases hg : s ≥ e ∨ e ≥ l.length
  · rw [if_pos hg]
  · rw [if_neg hg]
    push_neg at hg
    have hse : s < e := hg.1
    have hel : e < l.length := hg.2
    have hdecomp : l = l.take s ++ ((l.drop s).take (e + 1 - s) ++ l.drop (e + 1)) := by
      conv_lhs => rw [← List.take_append_drop s l]
      congr 1
      conv_lhs => rw [← List.take_append_drop (e + 1 - s) (l.drop s)]
      congr 1
      rw [List.drop_drop]
      congr 1
      omega
    conv_rhs => rw [hdecomp]
    rw [List.append_assoc]
    exact List.Perm.append_left _ ((hperm _).append_right _)

/-- `ShuffleInv` only looks at the track list, the mode and the order. -/
lemma shuffleInv_congr (q q' : Queue) (hT : q'.Tracks = q.Tracks)
    (hM : q'.ShuffleMode = q.ShuffleMode)
    (hO : q'.ShuffleOrder = q.ShuffleOrder) :
    ShuffleInv q → ShuffleInv q' := by
  intro ⟨h1, h2⟩
  constructor
  · intro hm
    rw [hO, hT]
    exact h1 (by rw [← hM]; exact hm)
  · intro hm
    rw [hO]
    exact h2 (by rw [← hM]; exact hm)

lemma playTrack_frame (i : Int) (q : Queue) :
    (playTrack i q).2.Tracks = q.Tracks ∧
    (playTrack i q).2.ShuffleMode = q.ShuffleMode ∧
    (playTrack i q).2.ShuffleOrder = q.ShuffleOrder := by
  rw [playTrack]
  repeat' split
  all_goals simp

lemma nextTrack_frame (q : Queue) :
    (nextTrack q).2.2.Tracks = q.Tracks ∧
    (nextTrack q).2.2.ShuffleMode = q.ShuffleMode ∧
    (nextTrack q).2.2.ShuffleOrder = q.ShuffleOrder := by
  rw [nextTrack]
  repeat' split
  all_goals simp [apply_ite (fun x : Option Track × Bool × Queue => x.2.2.Tracks),
    apply_ite (fun x : Option Track × Bool × Queue => x.2.2.ShuffleMode),
    apply_ite (fun x : Option Track × Bool × Queue => x.2.2.ShuffleOrder)]

lemma previousTrack_frame (q : Queue) :
    (previousTrack q).2.2.Tracks = q.Tracks ∧
    (previousTrack q).2.2.ShuffleMode = q.ShuffleMode ∧
    (previousTrack q).2.2.ShuffleOrder = q.ShuffleOrder := by
  rw [previousTrack]
  repeat' split
  all_goals simp [apply_ite (fun x : Option Track × Bool × Queue => x.2.2.Tracks),
    apply_ite (fun x : Option Track × Bool × Queue => x.2.2.ShuffleMode),
    apply_ite (fun x : Option Track × Bool × Queue => x.2.2.ShuffleOrder)]

lemma cycleRepeatMode_frame (q : Queue) :
    (cycleRepeatMode q).2.Tracks = q.Tracks ∧
    (cycleRepeatMode q).2.ShuffleMode = q.ShuffleMode ∧
    (cycleRepeatMode q).2.ShuffleOrder = q.ShuffleOrder := by
  cases hm : q.RepeatMode <;> simp [cycleRepeatMode, hm]

lemma clear_shuffleInv (q : Queue) : ShuffleInv (clear q) := by
  constructor
  · intro _
    simp [clear]
  · intro _
    rfl

lemma add_fields_on (t : Track) (q : Queue) (hm : q.ShuffleMode = true) :
    (add t q).Tracks = q.Tracks ++ [t] ∧
    (add t q).ShuffleMode = q.ShuffleMode ∧
    (add t q).ShuffleOrder =
      q.ShuffleOrder ++ [(((q.Tracks ++ [t]).length - 1 : Nat) : Int)] := by
  rw [add]
  simp only [hm, if_true]
  split
  · exact ⟨rfl, rfl, rfl⟩
  · exact ⟨rfl, rfl, rfl⟩

lemma add_fields_off (t : Track) (q : Queue) (hm : q.ShuffleMode = false) :
    (add t q).Tracks = q.Tracks ++ [t] ∧
    (add t q).ShuffleMode = q.ShuffleMode ∧
    (add t q).ShuffleOrder = q.ShuffleOrder := by
  rw [add]
  simp only [hm, Bool.false_eq_true, if_false]
  split
  · exact ⟨rfl, rfl, rfl⟩
  · exact ⟨rfl, rfl, rfl⟩

lemma add_shuffleInv (t : Track) (q : Queue) (h : ShuffleInv q) :
    ShuffleInv (add t q) := by
  obtain ⟨h1, h2⟩ := h
  by_cases hm : q.ShuffleMode = true
  · obtain ⟨hT, hM, hO⟩ := add_fields_on t q hm
    constructor
    · intro _
      rw [hO, hT]
      have hn : (((q.Tracks ++ [t]).length - 1 : Nat) : Int) =
          ((q.Tracks.length : Nat) : Int) := by
        simp
      rw [hn]
      have : List.range (q.Tracks ++ [t]).length =
          List.range q.Tracks.length ++ [q.Tracks.length] := by
        simp [List.range_succ]
      rw [this, List.map_append]
      exact (h1 hm).append_right _
    · intro hf
      rw [hM, hm] at hf
      exact absurd hf (by simp)
  · have hm' : q.ShuffleMode = false := by
      cases hb : q.ShuffleMode
      · rfl
      · exact absurd hb hm
    obtain ⟨hT, hM, hO⟩ := add_fields_off t q hm'
    constructor
    · intro hf
      rw [hM, hm'] at hf
      exact absurd hf (by simp)
    · intro _
      rw [hO]
      exact h2 hm'

lemma addTracks_fields_on (shuf : List Int → List Int) (ts : List Track)
    (q : Queue) (hm : q.ShuffleMode = true) (hts : ¬ ts.length = 0) :
    (addTracks shuf ts q).Tracks = q.Tracks ++ ts ∧
    (addTracks shuf ts q).ShuffleMode = q.ShuffleMode ∧
    (addTracks shuf ts q).ShuffleOrder =
      shuffleSegment shuf q.Tracks.length ((q.Tracks ++ ts).length - 1)
        (q.ShuffleOrder ++
          ((List.range (q.Tracks ++ ts).length).drop q.Tracks.length).map
            Int.ofNat) := by
  rw [addTracks, if_neg hts]
  simp only [hm, if_true]
  split
  · exact ⟨rfl, rfl, rfl⟩
  · exact ⟨rfl, rfl, rfl⟩

lemma addTracks_fields_off (shuf : List Int → List Int) (ts : List Track)
    (q : Queue) (hm : q.ShuffleMode = false) (hts : ¬ ts.length = 0) :
    (addTracks shuf ts q).Tracks = q.Tracks ++ ts ∧
    (addTracks shuf ts q).ShuffleMode = q.ShuffleMode ∧
    (addTracks shuf ts q).ShuffleOrder = q.ShuffleOrder := by
  rw [addTracks, if_neg hts]
  simp only [hm, Bool.false_eq_true, if_false]
  split
  · exact ⟨rfl, rfl, rfl⟩
  · exact ⟨rfl, rfl, rfl⟩

lemma addTracks_shuffleInv (shuf : List Int → List Int) (ts : List Track)
    (q : Queue) (hperm : ∀ l, (shuf l).Perm l) (h : ShuffleInv q) :
    ShuffleInv (addTracks shuf ts q) := by
  by_cases hts : ts.length = 0
  · rw [addTracks, if_pos hts]
    exact h
  · obtain ⟨h1, h2⟩ := h
    by_cases hm : q.ShuffleMode = true
    · obtain ⟨hT, hM, hO⟩ := addTracks_fields_on shuf ts q hm hts
      constructor
      · intro _
        rw [hO, hT]
        refine (shuffleSegment_perm shuf hperm _ _ _).trans ?_
        refine ((h1 hm).append_right _).trans ?_
        rw [← List.map_append]
        have : List.range q.Tracks.length ++
            (List.range (q.Tracks ++ ts).length).drop q.Tracks.length =
            List.range (q.Tracks ++ ts).length := by
          have hle : q.Tracks.length ≤ (q.Tracks ++ ts).length := by
            simp
          conv_lhs =>
            rw [show List.range q.Tracks.length =
              (List.range (q.Tracks ++ ts).length).take q.Tracks.length by
                rw [List.take_range]
                congr 1
                omega]
          exact List.take_append_drop _ _
        rw [this]
      · intro hf
        rw [hM, hm] at hf
        exact absurd hf (by simp)
    · have hm' : q.ShuffleMode = false := by
        cases hb : q.ShuffleMode
        · rfl
        · exact absurd hb hm
      obtain ⟨hT, hM, hO⟩ := addTracks_fields_off shuf ts q hm' hts
      constructor
      · intro hf
        rw [hM, hm'] at hf
        exact absurd hf (by simp)
      · intro _
        rw [hO]
        exact h2 hm'

lemma setTracks_shuffleInv (shuf : List Int → List Int) (ts : List Track)
    (q : Queue) (hperm : ∀ l, (shuf l).Perm l) :
    ShuffleInv (setTracks shuf ts q) :=
  addTracks_shuffleInv shuf ts (clear q) hperm (clear_shuffleInv q)

lemma toggle_fields_off_general (shuf : List Int → List Int) (q : Queue)
    (hm : q.ShuffleMode = true) :
    (toggleShuffleMode shuf q).ShuffleMode = false ∧
    (toggleShuffleMode shuf q).ShuffleOrder = [] ∧
    (toggleShuffleMode shuf q).Tracks = q.Tracks := by
  rw [toggleShuffleMode]
  simp only [hm, Bool.not_true]
  repeat' split
  all_goals first
  | exact ⟨rfl, rfl, rfl⟩
  | simp_all

lemma toggleShuffleMode_shuffleInv (shuf : List Int → List Int) (q : Queue)
    (hperm : ∀ l, (shuf l).Perm l) (h : ShuffleInv q) :
    ShuffleInv (toggleShuffleMode shuf q) := by
  by_cases hm : q.ShuffleMode = true
  · obtain ⟨hM, hO, -⟩ := toggle_fields_off_general shuf q hm
    constructor
    · intro hf
      rw [hM] at hf
      exact absurd hf (by simp)
    · intro _
      exact hO
  · have hm' : q.ShuffleMode = false := by
      cases hb : q.ShuffleMode
      · rfl
      · exact absurd hb hm
    have horder : (shuf ((List.range q.Tracks.length).map Int.ofNat)).Perm
        ((List.range q.Tracks.length).map Int.ofNat) := hperm _
    rw [toggleShuffleMode]
    simp only [hm', Bool.not_false]
    cases hgc : getCurrentTrack { q with ShuffleMode := true } with
    | none =>
      simp only [hgc]
      exact ⟨fun _ => horder, fun hf => absurd hf (by simp)⟩
    | some tr =>
      simp only [hgc]
      cases hfi : (shuf ((List.range q.Tracks.length).map Int.ofNat)).findIdx?
          (fun idx => idx = q.CurrentIndex) with
      | none =>
        simp only [hfi]
        exact ⟨fun _ => horder, fun hf => absurd hf (by simp)⟩
      | some i =>
        simp only [hfi]
        have hilt := (findIdxQ_spec hfi).1
        refine ⟨fun _ => ?_, fun hf => absurd hf (by simp)⟩
        exact (set_set_swap_perm _ i hilt).trans horder

/-- The queue states reachable from `NewQueue` by the public operations; the
random draws of `AddTracks`, `SetTracks` and `ToggleShuffleMode` are
arbitrary permutations (which is what a Fisher–Yates shuffle produces). -/
inductive Reachable : Queue → Prop where
  | base : Reachable newQueue
  | clear_step {q : Queue} : Reachable q → Reachable (clear q)
  | add_step {q : Queue} (t : Track) : Reachable q → Reachable (add t q)
  | addTracks_step {q : Queue} (shuf : List Int → List Int) (ts : List Track) :
      (∀ l, (shuf l).Perm l) → Reachable q → Reachable (addTracks shuf ts q)
  | setTracks_step {q : Queue} (shuf : List Int → List Int) (ts : List Track) :
      (∀ l, (shuf l).Perm l) → Reachable q → Reachable (setTracks shuf ts q)
  | playTrack_step {q : Queue} (i : Int) :
      Reachable q → Reachable (playTrack i q).2
  | nextTrack_step {q : Queue} : Reachable q → Reachable (nextTrack q).2.2
  | previousTrack_step {q : Queue} :
      Reachable q → Reachable (previousTrack q).2.2
  | toggle_step {q : Queue} (shuf : List Int → List Int) :
      (∀ l, (shuf l).Perm l) → Reachable q → Reachable (toggleShuffleMode shuf q)
  | cycle_step {q : Queue} : Reachable q → Reachable (cycleRepeatMode q).2

/-- C7: every state reachable from `NewQueue` by any sequence of `Clear`,
`Add`, `AddTracks`, `SetTracks`, `PlayTrack`, `NextTrack`, `PreviousTrack`,
`ToggleShuffleMode`, `CycleRepeatMode` satisfies the shuffle invariant: with
shuffle on, `ShuffleOrder` is a permutation of `0..len(tracks)-1` (so in
particular of length `len(tracks)`); with shuffle off it is empty. -/
theorem claim_C7_theorem (q : Queue) (h : Reachable q) : ShuffleInv q := by
  induction h with
  | base =>
    exact ⟨fun hf => absurd hf (by simp [newQueue]), fun _ => rfl⟩
  | clear_step _ _ =>
    exact clear_shuffleInv _
  | add_step t _ ih =>
    exact add_shuffleInv t _ ih
  | addTracks_step shuf ts hp _ ih =>
    exact addTracks_shuffleInv shuf ts _ hp ih
  | setTracks_step shuf ts hp _ =>
    exact setTracks_shuffleInv shuf ts _ hp
  | playTrack_step i _ ih =>
    exact shuffleInv_congr _ _ (playTrack_frame i _).1 (playTrack_frame i _).2.1
      (playTrack_frame i _).2.2 ih
  | nextTrack_step _ ih =>
    exact shuffleInv_congr _ _ (nextTrack_frame _).1 (nextTrack_frame _).2.1
      (nextTrack_frame _).2.2 ih
  | previousTrack_step _ ih =>
    exact shuffleInv_congr _ _ (previousTrack_frame _).1
      (previousTrack_frame _).2.1 (previousTrack_frame _).2.2 ih
  | toggle_step shuf hp _ ih =>
    exact toggleShuffleMode_shuffleInv shuf _ hp ih
  | cycle_step _ ih =>
    exact shuffleInv_congr _ _ (cycleRepeatMode_frame _).1
      (cycleRepeatMode_frame _).2.1 (cycleRepeatMode_frame _).2.2 ih

/-- C7 witness: the invariant at a concrete reachable state — `[A]` enqueued
into a fresh queue, shuffle then toggled on with a concrete draw. -/
theorem claim_C7_witness :
    ShuffleInv (toggleShuffleMode (fun l => l) (add trackA newQueue)) :=
  claim_C7_theorem _ (Reachable.toggle_step (fun l => l)
    (fun l => List.Perm.refl l) (Reachable.add_step trackA Reachable.base))

/-! ### C6 -/

/-- C6: while shuffle is active, `AddTracks` leaves the existing
`ShuffleOrder` prefix exactly in place (same entries, same positions, hence
same pairwise order) and appends a permutation of the newly added indices,
for every draw the segment shuffle may make.  The length hypothesis is the
shuffle invariant (`ShuffleOrder` has one entry per track), which C7 shows
holds in every reachable state. -/
theorem claim_C6_theorem (q : Queue) (ts : List Track)
    (shuf : List Int → List Int)
    (hsm : q.ShuffleMode = true) (hts : ts ≠ [])
    (hlen : q.ShuffleOrder.length = q.Tracks.length)
    (hperm : ∀ l, (shuf l).Perm l) :
    (addTracks shuf ts q).ShuffleOrder.take q.ShuffleOrder.length =
      q.ShuffleOrder ∧
    ((addTracks shuf ts q).ShuffleOrder.drop q.ShuffleOrder.length).Perm
      (((List.range (q.Tracks ++ ts).length).drop q.Tracks.length).map
        Int.ofNat) := by
  have hts0 : ¬ ts.length = 0 := fun h => hts (List.length_eq_zero.mp h)
  have htspos : 0 < ts.length := Nat.pos_of_ne_zero (fun h => hts0 h)
  obtain ⟨hT, hM, hO⟩ := addTracks_fields_on shuf ts q hsm hts0
  rw [hO]
  have hNlen : (((List.range (q.Tracks ++ ts).length).drop
      q.Tracks.length).map Int.ofNat).length = ts.length := by
    simp
  have hLlen : (q.ShuffleOrder ++
      ((List.range (q.Tracks ++ ts).length).drop q.Tracks.length).map
        Int.ofNat).length = q.Tracks.length + ts.length := by
    rw [List.length_append, hlen, hNlen]
  rw [shuffleSegment]
  by_cases hg : q.Tracks.length ≥ (q.Tracks ++ ts).length - 1 ∨
      (q.Tracks ++ ts).length - 1 ≥ (q.ShuffleOrder ++
        ((List.range (q.Tracks ++ ts).length).drop q.Tracks.length).map
          Int.ofNat).length
  · rw [if_pos hg]
    constructor
    · exact List.take_left _ _
    · rw [List.drop_left]
  · rw [if_neg hg]
    have hdrop : (q.ShuffleOrder ++
        ((List.range (q.Tracks ++ ts).length).drop q.Tracks.length).map
          Int.ofNat).drop q.Tracks.length =
        ((List.range (q.Tracks ++ ts).length).drop q.Tracks.length).map
          Int.ofNat := by
      rw [← hlen, List.drop_left]
    have htake : (((List.range (q.Tracks ++ ts).length).drop
        q.Tracks.length).map Int.ofNat).take
        ((q.Tracks ++ ts).length - 1 + 1 - q.Tracks.length) =
        ((List.range (q.Tracks ++ ts).length).drop q.Tracks.length).map
          Int.ofNat := by
      refine List.take_of_length_le ?_
      rw [hNlen]
      rw [List.length_append]
      omega
    have hdrop2 : (q.ShuffleOrder ++
        ((List.range (q.Tracks ++ ts).length).drop q.Tracks.length).map
          Int.ofNat).drop ((q.Tracks ++ ts).length - 1 + 1) = [] := by
      refine List.drop_eq_nil_of_le ?_
      rw [hLlen, List.length_append]
      omega
    have htakeL : (q.ShuffleOrder ++
        ((List.range (q.Tracks ++ ts).length).drop q.Tracks.length).map
          Int.ofNat).take q.Tracks.length = q.ShuffleOrder := by
      rw [← hlen, List.take_left]
    rw [hdrop, htake, hdrop2, htakeL, List.append_nil]
    constructor
    · exact List.take_left _ _
    · rw [List.drop_left]
      exact hperm _

/-- A concrete shuffled two-track queue for the C6 witness. -/
def queueShuffleAB : Queue :=
  { Tracks := [trackA, trackB]
    CurrentIndex := 0
    ShuffleMode := true
    RepeatMode := PlaybackMode.RepeatNone
    History := []
    ShuffleOrder := [1, 0] }

/-- C6 witness: appending `[C]` to the shuffled `[A,B]` queue with the
reversing draw keeps the prefix `[1,0]` and appends a permutation of
`[2]`. -/
theorem claim_C6_witness :
    (addTracks List.reverse [trackC] queueShuffleAB).ShuffleOrder.take
        queueShuffleAB.ShuffleOrder.length = queueShuffleAB.ShuffleOrder ∧
    ((addTracks List.reverse [trackC] queueShuffleAB).ShuffleOrder.drop
        queueShuffleAB.ShuffleOrder.length).Perm
      (((List.range (queueShuffleAB.Tracks ++ [trackC]).length).drop
        queueShuffleAB.Tracks.length).map Int.ofNat) :=
  claim_C6_theorem queueShuffleAB [trackC] List.reverse (by decide)
    (by decide) (by decide) (fun l => l.reverse_perm)
